import Mathlib

/-!
Verification of the pyQuadriFlow core pipeline (pipeline.cpp).

Shallow embedding conventions:
* Eigen 3-vectors of doubles are modelled as `Vec3` over ℚ (the claims under
  study concern indices, control flow and exact writes, not rounding).
* The external QuadriFlow engine (hierarchy initialisation, normalisation,
  optimizers, singularity computation, index-map compaction) is abstracted
  as an `Engine` record of arbitrary outputs; the orchestration code of
  pipeline.cpp is translated literally against it.
* C++ `throw` is modelled with `Except` / `Option`; stage calls are recorded
  in an event trace so that ordering claims can be stated.
* The `uint32_t` conversion applied to raw face indices is modelled by
  reduction modulo 2^32.
-/

namespace QF

/-- A 3-component vector with rational components (models Eigen Vector3d). -/
structure Vec3 where
  x : ℚ
  y : ℚ
  z : ℚ
deriving DecidableEq, Repr

/-- Componentwise subtraction, models `p1 - p0`. -/
def Vec3.sub (a b : Vec3) : Vec3 := ⟨a.x - b.x, a.y - b.y, a.z - b.z⟩

/-- Squared Euclidean norm, models `edge.squaredNorm()`. -/
def Vec3.sqNorm (a : Vec3) : ℚ := a.x * a.x + a.y * a.y + a.z * a.z

/-- Scale by a scalar and translate, models `p * scale + offset`. -/
def Vec3.scaleAdd (p : Vec3) (s : ℚ) (o : Vec3) : Vec3 :=
  ⟨p.x * s + o.x, p.y * s + o.y, p.z * s + o.z⟩

/-- The zero vector. -/
def Vec3.zero : Vec3 := ⟨0, 0, 0⟩

/-! ## Mesh ingestion and deduplication (Parametrizer2::LoadFromArrays)

The C++ deduplication key `obj_vertex` carries (p, n, uv) but n and uv are
always the unset sentinel, so the key degenerates to the position index `p`
(a `uint32_t` obtained by converting the raw `int` face entry).  The
`unordered_map` lookup of a key is equivalent to finding the key's (unique)
position in the insertion-ordered `vertices` list.  -/

/-- Conversion of a C++ `int` face entry to `uint32_t` (two's-complement wrap). -/
def toU32 (k : Int) : Nat := (k % (2 ^ 32 : Int)).toNat

/-- The flattened stream of (converted) face corner indices, in iteration
order: face 0 corners 0,1,2, then face 1, and so on. -/
def flatFaces (faces : List (Int × Int × Int)) : List Nat :=
  faces.flatMap (fun f => [toU32 f.1, toU32 f.2.1, toU32 f.2.2])

/-- First index of `p` in a list, if present (models the hash-map lookup of
the deduplication key, since keys are stored in insertion order). -/
def findIdxQ (p : Nat) : List Nat → Option Nat
  | [] => none
  | q :: rest => if q = p then some 0 else (findIdxQ p rest).map (· + 1)

/-- One step of the deduplication loop body: state is (keys in insertion
order, emitted compact face indices); an unseen key is appended and assigned
the next compact index, a seen key re-emits its index. -/
def dedupStep (st : List Nat × List Nat) (p : Nat) : List Nat × List Nat :=
  match findIdxQ p st.1 with
  | some j => (st.1, st.2 ++ [j])
  | none => (st.1 ++ [p], st.2 ++ [st.1.length])

/-- The whole deduplication pass over the flattened corner stream. -/
def dedupRun (flat : List Nat) : List Nat × List Nat :=
  flat.foldl dedupStep ([], [])

/-- Model of `Parametrizer2::LoadFromArrays`: deduplicate the face corners,
then gather the referenced positions (`positions.at(...)` throws
`std::out_of_range` on an out-of-bounds key, modelled by `none`).
Returns the compact vertex columns `V` and the flat face-index array `F`.
The final `NormalizeMesh()` call is an external-engine rescaling that does
not change counts or indices; its recorded scale/offset reappear in the
`Engine` record used at extraction. -/
def LoadFromArrays (positions : List Vec3) (faces : List (Int × Int × Int)) :
    Option (List Vec3 × List Nat) :=
  match (dedupRun (flatFaces faces)).1.mapM (fun p => positions[p]?) with
  | some V => some (V, (dedupRun (flatFaces faces)).2)
  | none => none

/-! ### Characterisation of the deduplication fold -/

/-- The list of keys that `dedupNew ks l` appends after starting from seen
set `ks`: the distinct elements of `l` not in `ks`, in first-occurrence
order. -/
def dedupNew : List Nat → List Nat → List Nat
  | _, [] => []
  | ks, p :: rest =>
    if p ∈ ks then dedupNew ks rest else p :: dedupNew (ks ++ [p]) rest

theorem findIdxQ_eq_none_iff (p : Nat) (l : List Nat) :
    findIdxQ p l = none ↔ p ∉ l := by
  induction l with
  | nil => simp [findIdxQ]
  | cons q rest ih =>
    by_cases h : q = p
    · subst h
      simp [findIdxQ]
    · simp [findIdxQ, h, ih, Option.map_eq_none']
      tauto

theorem findIdxQ_append_some (p : Nat) (l t : List Nat) (j : Nat)
    (h : findIdxQ p l = some j) : findIdxQ p (l ++ t) = some j := by
  induction l generalizing j with
  | nil => simp [findIdxQ] at h
  | cons q rest ih =>
    by_cases hq : q = p
    · subst hq
      simp [findIdxQ] at h ⊢
      exact h
    · simp [findIdxQ, hq] at h ⊢
      obtain ⟨j0, hj0, rfl⟩ := h
      exact ⟨j0, ih j0 hj0, rfl⟩

theorem findIdxQ_append_none (p : Nat) (l t : List Nat)
    (h : findIdxQ p l = none) :
    findIdxQ p (l ++ t) = (findIdxQ p t).map (· + l.length) := by
  induction l with
  | nil => simp
  | cons q rest ih =>
    by_cases hq : q = p
    · subst hq
      simp [findIdxQ] at h
    · simp [findIdxQ, hq] at h ⊢
      rw [ih h]
      cases findIdxQ p t with
      | none => simp
      | some j => simp; omega

theorem findIdxQ_self_cons (p : Nat) (t : List Nat) :
    findIdxQ p (p :: t) = some 0 := by
  simp [findIdxQ]

theorem mem_dedupNew (a : Nat) (l ks : List Nat) :
    a ∈ dedupNew ks l ↔ a ∈ l ∧ a ∉ ks := by
  induction l generalizing ks with
  | nil => simp [dedupNew]
  | cons p rest ih =>
    by_cases hp : p ∈ ks
    · rw [dedupNew, if_pos hp, ih]
      constructor
      · rintro ⟨h1, h2⟩
        exact ⟨List.mem_cons_of_mem _ h1, h2⟩
      · rintro ⟨h1, h2⟩
        rcases List.mem_cons.mp h1 with rfl | h1
        · exact absurd hp h2
        · exact ⟨h1, h2⟩
    · rw [dedupNew, if_neg hp]
      constructor
      · intro h
        rcases List.mem_cons.mp h with rfl | h
        · exact ⟨List.mem_cons_self _ _, hp⟩
        · rcases (ih (ks ++ [p])).mp h with ⟨h1, h2⟩
          simp at h2
          exact ⟨List.mem_cons_of_mem _ h1, h2.1⟩
      · rintro ⟨h1, h2⟩
        rcases List.mem_cons.mp h1 with rfl | h1
        · exact List.mem_cons_self _ _
        · by_cases hap : a = p
          · subst hap
            exact List.mem_cons_self _ _
          · refine List.mem_cons_of_mem _ ((ih (ks ++ [p])).mpr ⟨h1, ?_⟩)
            simp [h2, hap]

theorem nodup_append_dedupNew (ks l : List Nat) (h : ks.Nodup) :
    (ks ++ dedupNew ks l).Nodup := by
  induction l generalizing ks with
  | nil => simpa [dedupNew]
  | cons p rest ih =>
    by_cases hp : p ∈ ks
    · rw [dedupNew, if_pos hp]
      exact ih ks h
    · rw [dedupNew, if_neg hp]
      have h2 : (ks ++ [p]).Nodup := by
        simp [List.nodup_append, h, hp]
      have h3 := ih (ks ++ [p]) h2
      rw [List.append_assoc, List.singleton_append] at h3
      exact h3

theorem dedupNew_append (ks l1 l2 : List Nat) :
    dedupNew ks (l1 ++ l2) =
      dedupNew ks l1 ++ dedupNew (ks ++ dedupNew ks l1) l2 := by
  induction l1 generalizing ks with
  | nil => simp [dedupNew]
  | cons p rest ih =>
    by_cases hp : p ∈ ks
    · simp only [List.cons_append, dedupNew, if_pos hp]
      exact ih ks
    · simp only [List.cons_append, dedupNew, if_neg hp, List.append_eq]
      rw [ih (ks ++ [p]), List.append_assoc, List.singleton_append]

/-- The keys component of the deduplication fold, relative to an arbitrary
starting state. -/
theorem foldl_dedupStep_keys (l : List Nat) (ks ix : List Nat) :
    (l.foldl dedupStep (ks, ix)).1 = ks ++ dedupNew ks l := by
  induction l generalizing ks ix with
  | nil => simp [dedupNew]
  | cons p rest ih =>
    rcases hf : findIdxQ p ks with - | j
    · have hp : p ∉ ks := (findIdxQ_eq_none_iff p ks).mp hf
      simp only [List.foldl_cons, dedupStep, hf]
      rw [ih (ks ++ [p]) (ix ++ [ks.length]), dedupNew, if_neg hp,
        List.append_assoc, List.singleton_append]
    · have hp : p ∈ ks := by
        by_contra hc
        rw [(findIdxQ_eq_none_iff p ks).mpr hc] at hf
        exact Option.noConfusion hf
      simp only [List.foldl_cons, dedupStep, hf]
      rw [ih ks (ix ++ [j])]
      simp [dedupNew, hp]

/-- The compact index that the final key list assigns to key `p`. -/
def idxIn (keys : List Nat) (p : Nat) : Nat :=
  (findIdxQ p keys).getD keys.length

/-- The emitted-indices component of the deduplication fold: every emitted
index is the position of its key in the final key list. -/
theorem foldl_dedupStep_indices (l : List Nat) (ks ix : List Nat) :
    (l.foldl dedupStep (ks, ix)).2 =
      ix ++ l.map (idxIn (ks ++ dedupNew ks l)) := by
  induction l generalizing ks ix with
  | nil => simp [dedupNew]
  | cons p rest ih =>
    rcases hf : findIdxQ p ks with - | j
    · have hp : p ∉ ks := (findIdxQ_eq_none_iff p ks).mp hf
      simp only [List.foldl_cons, dedupStep, hf]
      rw [ih (ks ++ [p]) (ix ++ [ks.length])]
      have hkeys : ks ++ dedupNew ks (p :: rest) =
          (ks ++ [p]) ++ dedupNew (ks ++ [p]) rest := by
        rw [dedupNew, if_neg hp, List.append_assoc, List.singleton_append]
      rw [hkeys]
      have hidx : idxIn (ks ++ p :: dedupNew (ks ++ [p]) rest) p
          = ks.length := by
        unfold idxIn
        rw [findIdxQ_append_none p ks _ hf, findIdxQ_self_cons]
        simp
      simp [List.map_cons, hidx]
    · have hjlt : findIdxQ p (ks ++ dedupNew ks (p :: rest)) = some j :=
        findIdxQ_append_some p ks _ j hf
      have hp : p ∈ ks := by
        by_contra hc
        rw [(findIdxQ_eq_none_iff p ks).mpr hc] at hf
        exact Option.noConfusion hf
      simp only [List.foldl_cons, dedupStep, hf]
      rw [ih ks (ix ++ [j])]
      have hkeys : ks ++ dedupNew ks (p :: rest) =
          ks ++ dedupNew ks rest := by
        rw [dedupNew, if_pos hp]
      rw [hkeys] at hjlt ⊢
      have hidx : idxIn (ks ++ dedupNew ks rest) p = j := by
        unfold idxIn
        rw [hjlt]
        rfl
      simp [List.map_cons, hidx]

/-! ### Specialisation to the actual run (empty starting state) -/

theorem dedupRun_keys (flat : List Nat) :
    (dedupRun flat).1 = dedupNew [] flat := by
  have h := foldl_dedupStep_keys flat [] []
  simpa [dedupRun] using h

theorem dedupRun_indices (flat : List Nat) :
    (dedupRun flat).2 = flat.map (idxIn (dedupNew [] flat)) := by
  have h := foldl_dedupStep_indices flat [] []
  simpa [dedupRun] using h

theorem dedupRun_keys_nodup (flat : List Nat) :
    (dedupRun flat).1.Nodup := by
  rw [dedupRun_keys]
  have h := nodup_append_dedupNew [] flat List.nodup_nil
  simpa using h

theorem mem_dedupRun_keys (a : Nat) (flat : List Nat) :
    a ∈ (dedupRun flat).1 ↔ a ∈ flat := by
  rw [dedupRun_keys]
  simp [mem_dedupNew]

theorem dedupRun_indices_length (flat : List Nat) :
    (dedupRun flat).2.length = flat.length := by
  rw [dedupRun_indices, List.length_map]

/-- At a first reference (an occurrence of a key not seen strictly earlier
in the stream), the compact index assigned is exactly the number of distinct
keys seen strictly before it. -/
theorem idxIn_firstRef (flat : List Nat) (k : Nat) (hk : k < flat.length)
    (hfirst : flat[k] ∉ flat.take k) :
    idxIn (dedupNew [] flat) flat[k] = (flat.take k).toFinset.card := by
  have hsplit : flat = flat.take k ++ flat[k] :: flat.drop (k + 1) := by
    conv_lhs => rw [← List.take_append_drop k flat]
    rw [List.drop_eq_getElem_cons hk]
  set A := dedupNew [] (flat.take k) with hA
  have hmemA : ∀ a, a ∈ A ↔ a ∈ flat.take k := by
    intro a
    rw [hA, mem_dedupNew]
    simp
  have hpA : flat[k] ∉ A := fun hc => hfirst ((hmemA _).mp hc)
  have hkeys : dedupNew [] flat = A ++ flat[k] :: dedupNew (A ++ [flat[k]]) (flat.drop (k + 1)) := by
    conv_lhs => rw [hsplit]
    rw [dedupNew_append, List.nil_append, ← hA, dedupNew, if_neg hpA]
  have hfindA : findIdxQ flat[k] A = none := (findIdxQ_eq_none_iff _ _).mpr hpA
  have hlen : A.length = (flat.take k).toFinset.card := by
    have hnd : A.Nodup := by
      have h := nodup_append_dedupNew [] (flat.take k) List.nodup_nil
      simpa [hA] using h
    have hfs : A.toFinset = (flat.take k).toFinset := by
      ext a
      simp [List.mem_toFinset, hmemA]
    rw [← List.toFinset_card_of_nodup hnd, hfs]
  rw [hkeys]
  unfold idxIn
  rw [findIdxQ_append_none _ _ _ hfindA, findIdxQ_self_cons]
  simp [hlen]

/-- C3: whenever two face corners (same face or different faces) carry the
identical original vertex position index, ingestion emits the same compact
index for both; and each compact index assigned at a first reference equals
the number of distinct indices referenced strictly earlier, so compact
indices are dense, zero-based, and monotonically increasing in
first-reference order over the face iteration. -/
theorem claim_C3 (faces : List (Int × Int × Int)) (i j : Nat)
    (hi : i < (flatFaces faces).length) (hj : j < (flatFaces faces).length)
    (heq : (flatFaces faces)[i] = (flatFaces faces)[j]) :
    (dedupRun (flatFaces faces)).2[i]? = (dedupRun (flatFaces faces)).2[j]? ∧
    (∀ k, (hk : k < (flatFaces faces).length) →
      (flatFaces faces)[k] ∉ (flatFaces faces).take k →
      (dedupRun (flatFaces faces)).2[k]? =
        some ((flatFaces faces).take k).toFinset.card) := by
  constructor
  · rw [dedupRun_indices, List.getElem?_map, List.getElem?_map,
      List.getElem?_eq_getElem hi, List.getElem?_eq_getElem hj, heq]
  · intro k hk hfirst
    rw [dedupRun_indices, List.getElem?_map, List.getElem?_eq_getElem hk]
    simp only [Option.map_some']
    rw [idxIn_firstRef _ k hk hfirst]

/-- Witness for C3 at a concrete input: one face (0,1,0) whose first and
third corners share original index 0 and get the same compact index, while
corner 1 (a first reference) gets compact index 1. -/
theorem claim_C3_witness :
    (dedupRun (flatFaces [((0 : Int), (1 : Int), (0 : Int))])).2[0]? =
      (dedupRun (flatFaces [((0 : Int), (1 : Int), (0 : Int))])).2[2]? ∧
    (dedupRun (flatFaces [((0 : Int), (1 : Int), (0 : Int))])).2[1]? =
      some ((flatFaces [((0 : Int), (1 : Int), (0 : Int))]).take 1).toFinset.card :=
  ⟨(claim_C3 [(0, 1, 0)] 0 2 (by decide) (by decide) (by decide)).1,
   (claim_C3 [(0, 1, 0)] 0 2 (by decide) (by decide) (by decide)).2 1
     (by decide) (by decide)⟩

/-! ### Ingestion contract (C4) and out-of-range behaviour (C9) -/

theorem flatFaces_length (faces : List (Int × Int × Int)) :
    (flatFaces faces).length = 3 * faces.length := by
  induction faces with
  | nil => rfl
  | cons f rest ih =>
    simp only [flatFaces, List.flatMap_cons] at ih ⊢
    simp [ih]
    ring

theorem mem_flatFaces_of_mem {f : Int × Int × Int}
    {faces : List (Int × Int × Int)} (hf : f ∈ faces) :
    toU32 f.1 ∈ flatFaces faces ∧ toU32 f.2.1 ∈ flatFaces faces ∧
      toU32 f.2.2 ∈ flatFaces faces := by
  refine ⟨?_, ?_, ?_⟩ <;>
    exact List.mem_flatMap.mpr ⟨f, hf, by simp⟩

theorem toU32_of_nonneg {k : Int} (h0 : 0 ≤ k) (h1 : k < 2 ^ 32) :
    (toU32 k : Int) = k := by
  unfold toU32
  omega

theorem toU32_of_neg {k : Int} (h0 : -(2 ^ 31) ≤ k) (h1 : k < 0) :
    2 ^ 31 ≤ toU32 k := by
  unfold toU32
  omega

theorem mapM_getElem_eq_none (positions : List Vec3) (l : List Nat) (a : Nat)
    (ha : a ∈ l) (hnone : positions[a]? = none) :
    l.mapM (fun p => positions[p]?) = none := by
  induction l with
  | nil => cases ha
  | cons b rest ih =>
    rw [List.mapM_cons]
    rcases List.mem_cons.mp ha with rfl | ha
    · rw [hnone]
      rfl
    · rcases hb : positions[b]? with - | v
      · rfl
      · rw [ih ha]
        rfl

theorem mapM_getElem_eq_some (positions : List Vec3) (l : List Nat)
    (h : ∀ a ∈ l, a < positions.length) :
    ∃ V, l.mapM (fun p => positions[p]?) = some V ∧ V.length = l.length := by
  induction l with
  | nil => exact ⟨[], rfl, rfl⟩
  | cons b rest ih =>
    obtain ⟨V, hV, hlen⟩ := ih (fun a ha => h a (List.mem_cons_of_mem _ ha))
    have hb0 : b < positions.length := h b (List.mem_cons_self _ _)
    have hb : positions[b]? = some (positions.get ⟨b, hb0⟩) :=
      List.getElem?_eq_getElem hb0
    refine ⟨positions.get ⟨b, hb0⟩ :: V, ?_, by simp [hlen]⟩
    rw [List.mapM_cons, hb, hV]
    rfl

/-- C4: a valid input with N positions and M triangular faces loads
successfully into a compact mesh with at most N vertices, a face-index array
of exactly 3*M entries, and no compact vertex sourced from an input index
that no face references. -/
theorem claim_C4 (positions : List Vec3) (faces : List (Int × Int × Int))
    (hN : 0 < positions.length) (hM : 0 < faces.length)
    (hvalid : ∀ f ∈ faces,
      0 ≤ f.1 ∧ f.1 < (positions.length : Int) ∧
      0 ≤ f.2.1 ∧ f.2.1 < (positions.length : Int) ∧
      0 ≤ f.2.2 ∧ f.2.2 < (positions.length : Int)) :
    ∃ V F, LoadFromArrays positions faces = some (V, F) ∧
      V.length ≤ positions.length ∧
      F.length = 3 * faces.length ∧
      ∀ v : Nat, v ∉ flatFaces faces → v ∉ (dedupRun (flatFaces faces)).1 := by
  have hflat : ∀ p ∈ flatFaces faces, p < positions.length := by
    intro p hp
    obtain ⟨f, hf, hpf⟩ := List.mem_flatMap.mp hp
    obtain ⟨h1, h2, h3, h4, h5, h6⟩ := hvalid f hf
    have hcast : ∀ k : Int, 0 ≤ k → k < (positions.length : Int) →
        toU32 k < positions.length := by
      intro k hk0 hk1
      unfold toU32
      omega
    simp only [List.mem_cons, List.mem_singleton] at hpf
    rcases hpf with rfl | rfl | rfl | h
    · exact hcast _ h1 h2
    · exact hcast _ h3 h4
    · exact hcast _ h5 h6
    · cases h
  have hkeys : ∀ a ∈ (dedupRun (flatFaces faces)).1, a < positions.length :=
    fun a ha => hflat a ((mem_dedupRun_keys a _).mp ha)
  obtain ⟨V, hV, hVlen⟩ := mapM_getElem_eq_some positions _ hkeys
  refine ⟨V, (dedupRun (flatFaces faces)).2, ?_, ?_, ?_, ?_⟩
  · unfold LoadFromArrays
    rw [hV]
  · rw [hVlen]
    have hnd := dedupRun_keys_nodup (flatFaces faces)
    have hsub : (dedupRun (flatFaces faces)).1.toFinset ⊆
        Finset.range positions.length := by
      intro a ha
      rw [Finset.mem_range]
      exact hkeys a (List.mem_toFinset.mp ha)
    have hcard := Finset.card_le_card hsub
    rw [Finset.card_range, List.toFinset_card_of_nodup hnd] at hcard
    exact hcard
  · rw [dedupRun_indices_length, flatFaces_length]
  · intro v hv hc
    exact hv ((mem_dedupRun_keys v _).mp hc)

/-- Witness for C4 at a concrete valid input: two positions, one face. -/
theorem claim_C4_witness :
    ∃ V F, LoadFromArrays [⟨0, 0, 0⟩, ⟨1, 0, 0⟩] [((0 : Int), (1 : Int), (0 : Int))] = some (V, F) ∧
      V.length ≤ ([⟨0, 0, 0⟩, ⟨1, 0, 0⟩] : List Vec3).length ∧
      F.length = 3 * ([((0 : Int), (1 : Int), (0 : Int))] : List (Int × Int × Int)).length ∧
      ∀ v : Nat, v ∉ flatFaces [((0 : Int), (1 : Int), (0 : Int))] →
        v ∉ (dedupRun (flatFaces [((0 : Int), (1 : Int), (0 : Int))])).1 :=
  claim_C4 [⟨0, 0, 0⟩, ⟨1, 0, 0⟩] [(0, 1, 0)] (by decide) (by decide)
    (by decide)

/-! ## Boundary constraint derivation (pipeline.cpp lines 134-158)

The hierarchy is produced by the external engine's `Initialize`; the
constraint deriver only reads its finest-level face table `mF`, opposite
half-edge table `mE2E` (`-1` meaning no opposite) and vertex positions
`mV[0]`, so those are the fields modelled.  Eigen's `edge.normalize()` is an
external numeric routine applied only to vectors of positive squared norm;
it is abstracted as a parameter `nrm`. -/

/-- Finest level of the mesh hierarchy, as read by the constraint deriver:
`nF` columns in `mF`, `mF r c` the vertex of corner `r` of face `c`,
`mE2E i` the opposite of directed half-edge `i` (or `-1`), and `mV i` the
level-0 position of vertex `i`. -/
structure Hier where
  nF : Nat
  mF : Nat → Nat → Nat
  mE2E : Nat → Int
  mV : Nat → Vec3

/-- Per-vertex constraint fields at the finest level: constrained position
`co` (mCO[0]), constrained direction `cq` (mCQ[0]), position weight `cow`
(mCOw[0]) and direction weight `cqw` (mCQw[0]). -/
structure CState where
  co : Nat → Vec3
  cq : Nat → Vec3
  cow : Nat → ℚ
  cqw : Nat → ℚ

/-- Pointwise array write, `f[i] = v`. -/
def upd {α : Type} (f : Nat → α) (i : Nat) (v : α) : Nat → α :=
  fun j => if j = i then v else f j

/-- Modelled from the spec: the external `Hierarchy::clearConstraints` is a
full reset of all constraint fields (positions, directions and both weights
zeroed) — the spec's "clear all existing constraints first (full reset, not
incremental)"; its implementation lives in the external engine, outside
pipeline.cpp. -/
def clearConstraints : CState :=
  ⟨fun _ => Vec3.zero, fun _ => Vec3.zero, fun _ => 0, fun _ => 0⟩

/-- Tail vertex of directed half-edge `i`: `mF(i % 3, i / 3)`. -/
def edgeV0 (H : Hier) (i : Nat) : Nat := H.mF (i % 3) (i / 3)

/-- Head vertex of directed half-edge `i`: `mF((i + 1) % 3, i / 3)`. -/
def edgeV1 (H : Hier) (i : Nat) : Nat := H.mF ((i + 1) % 3) (i / 3)

/-- The edge vector `p1 - p0` of half-edge `i`. -/
def edgeVec (H : Hier) (i : Nat) : Vec3 :=
  Vec3.sub (H.mV (edgeV1 H i)) (H.mV (edgeV0 H i))

/-- The loop body for one directed half-edge `i` (lines 138-155): if `i` has
no opposite and its edge vector has positive squared norm, pin both
endpoints' positions, set both their directions to the normalised edge, and
set all four weights to 1. -/
def stepEdge (nrm : Vec3 → Vec3) (H : Hier) (s : CState) (i : Nat) : CState :=
  if H.mE2E i = -1 then
    if 0 < (edgeVec H i).sqNorm then
      { co := upd (upd s.co (edgeV0 H i) (H.mV (edgeV0 H i))) (edgeV1 H i) (H.mV (edgeV1 H i)),
        cq := upd (upd s.cq (edgeV0 H i) (nrm (edgeVec H i))) (edgeV1 H i) (nrm (edgeVec H i)),
        cqw := upd (upd s.cqw (edgeV0 H i) 1) (edgeV1 H i) 1,
        cow := upd (upd s.cow (edgeV0 H i) 1) (edgeV1 H i) 1 }
    else s
  else s

/-- The complete constraint-derivation pass (lines 136-156): clear all
constraints, then fold the loop body over all `3 * nF` directed half-edges
in increasing order. -/
def deriveBoundary (nrm : Vec3 → Vec3) (H : Hier) : CState :=
  (List.range (3 * H.nF)).foldl (stepEdge nrm H) clearConstraints

/-- Half-edge `i` actually writes constraints: it is in range, has no
opposite, and its edge vector has positive squared norm. -/
def qualifies (H : Hier) (i : Nat) : Prop :=
  i < 3 * H.nF ∧ H.mE2E i = -1 ∧ 0 < (edgeVec H i).sqNorm

instance (H : Hier) (i : Nat) : Decidable (qualifies H i) :=
  inferInstanceAs (Decidable (_ ∧ _ ∧ _))

/-- Vertex `v` is an endpoint of half-edge `i`. -/
def touches (H : Hier) (i v : Nat) : Prop :=
  edgeV0 H i = v ∨ edgeV1 H i = v

instance (H : Hier) (i v : Nat) : Decidable (touches H i v) :=
  inferInstanceAs (Decidable (_ ∨ _))

theorem range_split (n i : Nat) (h : i < n) :
    List.range n = List.range' 0 i ++ i :: List.range' (i + 1) (n - i - 1) := by
  have h2 := List.range'_append 0 i (n - i) 1
  simp only [one_mul, Nat.zero_add] at h2
  have h3 : n - i + i = n := by omega
  rw [h3] at h2
  have h4 : List.range' i (n - i) = i :: List.range' (i + 1) (n - i - 1) := by
    have h5 : n - i = (n - i - 1) + 1 := by omega
    conv_lhs => rw [h5]
    rw [List.range'_succ]
  rw [List.range_eq_range' n, ← h2, h4]

/-- A half-edge that does not write at `v` (not boundary, zero-length, or
not an endpoint) leaves all four constraint fields of `v` unchanged. -/
theorem stepEdge_untouched (nrm : Vec3 → Vec3) (H : Hier) (s : CState) (i v : Nat)
    (h : ¬(H.mE2E i = -1 ∧ 0 < (edgeVec H i).sqNorm ∧ touches H i v)) :
    (stepEdge nrm H s i).co v = s.co v ∧ (stepEdge nrm H s i).cq v = s.cq v ∧
    (stepEdge nrm H s i).cow v = s.cow v ∧ (stepEdge nrm H s i).cqw v = s.cqw v := by
  unfold stepEdge
  by_cases h1 : H.mE2E i = -1
  · rw [if_pos h1]
    by_cases h2 : 0 < (edgeVec H i).sqNorm
    · rw [if_pos h2]
      have ht : ¬touches H i v := fun hc => h ⟨h1, h2, hc⟩
      have hv0 : v ≠ edgeV0 H i := fun hc => ht (Or.inl hc.symm)
      have hv1 : v ≠ edgeV1 H i := fun hc => ht (Or.inr hc.symm)
      refine ⟨?_, ?_, ?_, ?_⟩ <;>
        simp [upd, hv0, hv1]
    · rw [if_neg h2]
      exact ⟨rfl, rfl, rfl, rfl⟩
  · rw [if_neg h1]
    exact ⟨rfl, rfl, rfl, rfl⟩

/-- A boundary half-edge of positive length writes, at each of its
endpoints, the endpoint's own position (head beats tail if both coincide
with `v`), the normalised edge direction, and unit weights — independently
of the prior state. -/
theorem stepEdge_touch (nrm : Vec3 → Vec3) (H : Hier) (s : CState) (i v : Nat)
    (h1 : H.mE2E i = -1) (h2 : 0 < (edgeVec H i).sqNorm) (ht : touches H i v) :
    (stepEdge nrm H s i).co v =
      (if v = edgeV1 H i then H.mV (edgeV1 H i) else H.mV (edgeV0 H i)) ∧
    (stepEdge nrm H s i).cq v = nrm (edgeVec H i) ∧
    (stepEdge nrm H s i).cow v = 1 ∧ (stepEdge nrm H s i).cqw v = 1 := by
  unfold stepEdge
  rw [if_pos h1, if_pos h2]
  by_cases hv1 : v = edgeV1 H i
  · refine ⟨?_, ?_, ?_, ?_⟩ <;>
      simp [upd, if_pos hv1]
  · have hv0 : v = edgeV0 H i := by
      rcases ht with h | h
      · exact h.symm
      · exact absurd h.symm hv1
    refine ⟨?_, ?_, ?_, ?_⟩ <;>
      · simp only [upd]
        rw [if_neg hv1, if_pos hv0]
        try rw [if_neg hv1]

/-- Weights are only ever written with the value 1, so weight 1 at a vertex
is preserved by every further half-edge step. -/
theorem stepEdge_weights_pres (nrm : Vec3 → Vec3) (H : Hier) (s : CState) (i v : Nat)
    (h : s.cow v = 1 ∧ s.cqw v = 1) :
    (stepEdge nrm H s i).cow v = 1 ∧ (stepEdge nrm H s i).cqw v = 1 := by
  unfold stepEdge
  by_cases h1 : H.mE2E i = -1
  · rw [if_pos h1]
    by_cases h2 : 0 < (edgeVec H i).sqNorm
    · rw [if_pos h2]
      constructor
      · simp only [upd]
        split
        · rfl
        · split
          · rfl
          · exact h.1
      · simp only [upd]
        split
        · rfl
        · split
          · rfl
          · exact h.2
    · rw [if_neg h2]
      exact h
  · rw [if_neg h1]
    exact h

theorem foldl_step_untouched (nrm : Vec3 → Vec3) (H : Hier) (v : Nat)
    (l : List Nat) (s : CState)
    (hl : ∀ j ∈ l, ¬(H.mE2E j = -1 ∧ 0 < (edgeVec H j).sqNorm ∧ touches H j v)) :
    (l.foldl (stepEdge nrm H) s).co v = s.co v ∧
    (l.foldl (stepEdge nrm H) s).cq v = s.cq v ∧
    (l.foldl (stepEdge nrm H) s).cow v = s.cow v ∧
    (l.foldl (stepEdge nrm H) s).cqw v = s.cqw v := by
  induction l generalizing s with
  | nil => exact ⟨rfl, rfl, rfl, rfl⟩
  | cons j rest ih =>
    have hj := stepEdge_untouched nrm H s j v (hl j (List.mem_cons_self _ _))
    have hr := ih (stepEdge nrm H s j) (fun a ha => hl a (List.mem_cons_of_mem _ ha))
    simp only [List.foldl_cons]
    exact ⟨hr.1.trans hj.1, hr.2.1.trans hj.2.1,
      hr.2.2.1.trans hj.2.2.1, hr.2.2.2.trans hj.2.2.2⟩

theorem foldl_weights_pres (nrm : Vec3 → Vec3) (H : Hier) (v : Nat)
    (l : List Nat) (s : CState) (h : s.cow v = 1 ∧ s.cqw v = 1) :
    (l.foldl (stepEdge nrm H) s).cow v = 1 ∧
    (l.foldl (stepEdge nrm H) s).cqw v = 1 := by
  induction l generalizing s with
  | nil => exact h
  | cons j rest ih =>
    simp only [List.foldl_cons]
    exact ih (stepEdge nrm H s j) (stepEdge_weights_pres nrm H s j v h)

/-- A degenerate hierarchy: one face whose three vertices 0,1,2 all sit at
the same position, every half-edge reporting no opposite.  Reachable because
deduplication merges by index, not by coordinate value, so coincident
positions survive ingestion. -/
def Hdeg : Hier :=
  ⟨1, fun r _ => r, fun _ => -1, fun _ => Vec3.zero⟩

/-- A proper boundary triangle: one face with vertices 0,1,2 at three
distinct positions, every half-edge reporting no opposite. -/
def Htri : Hier :=
  ⟨1, fun r _ => r, fun _ => -1,
    fun v => if v = 0 then ⟨0, 0, 0⟩ else if v = 1 then ⟨1, 0, 0⟩ else ⟨0, 1, 0⟩⟩

/-- Counterexample to C1 as frozen: half-edge 0 of `Hdeg` has no opposite,
yet after constraint derivation the position weight of its tail endpoint is
0, not 1 — the loop body skips boundary edges whose edge vector has zero
squared norm, so their endpoints receive no constraints. -/
theorem claim_C1_counterexample :
    Hdeg.mE2E 0 = -1 ∧ 0 < 3 * Hdeg.nF ∧
    ¬(deriveBoundary id Hdeg).cow (edgeV0 Hdeg 0) = 1 := by
  refine ⟨rfl, by norm_num [Hdeg], ?_⟩
  have hall : ∀ j ∈ List.range (3 * Hdeg.nF),
      ¬(Hdeg.mE2E j = -1 ∧ 0 < (edgeVec Hdeg j).sqNorm ∧
        touches Hdeg j (edgeV0 Hdeg 0)) := by
    intro j hj hc
    have hz : (edgeVec Hdeg j).sqNorm = 0 := by
      norm_num [edgeVec, Hdeg, Vec3.sub, Vec3.sqNorm, Vec3.zero]
    rw [hz] at hc
    exact absurd hc.2.1 (lt_irrefl 0)
  have h0 := (foldl_step_untouched id Hdeg (edgeV0 Hdeg 0)
    (List.range (3 * Hdeg.nF)) clearConstraints hall).2.2.1
  unfold deriveBoundary
  rw [h0]
  norm_num [clearConstraints]

/-- C1 (amended): when boundary preservation is active, after constraint
derivation every directed half-edge with no opposite whose edge vector has
positive squared norm has both endpoints carrying position weight 1 and
direction weight 1 at the finest hierarchy level. -/
theorem claim_C1 (nrm : Vec3 → Vec3) (H : Hier) (i : Nat)
    (hq : qualifies H i) :
    (deriveBoundary nrm H).cow (edgeV0 H i) = 1 ∧
    (deriveBoundary nrm H).cqw (edgeV0 H i) = 1 ∧
    (deriveBoundary nrm H).cow (edgeV1 H i) = 1 ∧
    (deriveBoundary nrm H).cqw (edgeV1 H i) = 1 := by
  obtain ⟨hlt, h1, h2⟩ := hq
  unfold deriveBoundary
  rw [range_split (3 * H.nF) i hlt]
  simp only [List.foldl_append, List.foldl_cons]
  have hstep0 := stepEdge_touch nrm H
    ((List.range' 0 i).foldl (stepEdge nrm H) clearConstraints) i (edgeV0 H i)
    h1 h2 (Or.inl rfl)
  have hstep1 := stepEdge_touch nrm H
    ((List.range' 0 i).foldl (stepEdge nrm H) clearConstraints) i (edgeV1 H i)
    h1 h2 (Or.inr rfl)
  have hpres0 := foldl_weights_pres nrm H (edgeV0 H i)
    (List.range' (i + 1) (3 * H.nF - i - 1))
    (stepEdge nrm H ((List.range' 0 i).foldl (stepEdge nrm H) clearConstraints) i)
    ⟨hstep0.2.2.1, hstep0.2.2.2⟩
  have hpres1 := foldl_weights_pres nrm H (edgeV1 H i)
    (List.range' (i + 1) (3 * H.nF - i - 1))
    (stepEdge nrm H ((List.range' 0 i).foldl (stepEdge nrm H) clearConstraints) i)
    ⟨hstep1.2.2.1, hstep1.2.2.2⟩
  exact ⟨hpres0.1, hpres0.2, hpres1.1, hpres1.2⟩

/-- Witness for the amended C1 on the concrete boundary triangle. -/
theorem claim_C1_witness :
    qualifies Htri 0 ∧
    ((deriveBoundary id Htri).cow (edgeV0 Htri 0) = 1 ∧
     (deriveBoundary id Htri).cqw (edgeV0 Htri 0) = 1 ∧
     (deriveBoundary id Htri).cow (edgeV1 Htri 0) = 1 ∧
     (deriveBoundary id Htri).cqw (edgeV1 Htri 0) = 1) :=
  ⟨by norm_num [qualifies, Htri, edgeVec, edgeV0, edgeV1, Vec3.sub, Vec3.sqNorm],
   claim_C1 id Htri 0
     (by norm_num [qualifies, Htri, edgeVec, edgeV0, edgeV1, Vec3.sub, Vec3.sqNorm])⟩

/-- C8: at a vertex touched by several boundary edges, the final constraint
data at that vertex is exactly what the last qualifying (no-opposite,
positive-length) half-edge in iteration order writes there: its own endpoint
position (head beating tail), the normalised edge vector of that edge, and
unit weights — later writes fully overwrite earlier ones, no averaging. -/
theorem claim_C8 (nrm : Vec3 → Vec3) (H : Hier) (v i : Nat)
    (hq : qualifies H i) (ht : touches H i v)
    (hlast : ∀ j, qualifies H j → touches H j v → j ≤ i) :
    (deriveBoundary nrm H).co v =
      (if v = edgeV1 H i then H.mV (edgeV1 H i) else H.mV (edgeV0 H i)) ∧
    (deriveBoundary nrm H).cq v = nrm (edgeVec H i) ∧
    (deriveBoundary nrm H).cow v = 1 ∧
    (deriveBoundary nrm H).cqw v = 1 := by
  obtain ⟨hlt, h1, h2⟩ := hq
  unfold deriveBoundary
  rw [range_split (3 * H.nF) i hlt]
  simp only [List.foldl_append, List.foldl_cons]
  have hstep := stepEdge_touch nrm H
    ((List.range' 0 i).foldl (stepEdge nrm H) clearConstraints) i v h1 h2 ht
  have hrest : ∀ j ∈ List.range' (i + 1) (3 * H.nF - i - 1),
      ¬(H.mE2E j = -1 ∧ 0 < (edgeVec H j).sqNorm ∧ touches H j v) := by
    intro j hj hc
    have hmem := List.mem_range'_1.mp hj
    have hqj : qualifies H j := ⟨by omega, hc.1, hc.2.1⟩
    have := hlast j hqj hc.2.2
    omega
  have hfold := foldl_step_untouched nrm H v
    (List.range' (i + 1) (3 * H.nF - i - 1))
    (stepEdge nrm H ((List.range' 0 i).foldl (stepEdge nrm H) clearConstraints) i)
    hrest
  exact ⟨hfold.1.trans hstep.1, hfold.2.1.trans hstep.2.1,
    hfold.2.2.1.trans hstep.2.2.1, hfold.2.2.2.trans hstep.2.2.2⟩

/-- Witness for C8: on the boundary triangle, vertex 1 is an endpoint of
boundary edges 0 and 1; the last one, edge 1 (from vertex 1 to vertex 2),
determines its final constraints. -/
theorem claim_C8_witness :
    (deriveBoundary id Htri).co 1 =
      (if (1 : Nat) = edgeV1 Htri 1 then Htri.mV (edgeV1 Htri 1)
       else Htri.mV (edgeV0 Htri 1)) ∧
    (deriveBoundary id Htri).cq 1 = id (edgeVec Htri 1) ∧
    (deriveBoundary id Htri).cow 1 = 1 ∧
    (deriveBoundary id Htri).cqw 1 = 1 :=
  claim_C8 id Htri 1 1
    (by norm_num [qualifies, Htri, edgeVec, edgeV0, edgeV1, Vec3.sub, Vec3.sqNorm])
    (Or.inl rfl)
    (by
      intro j hqj htj
      have hj3 : j < 3 := by
        have hlt := hqj.1
        simp only [Htri] at hlt
        omega
      interval_cases j
      · omega
      · omega
      · exact absurd htj (by decide))

/-- C10: a directed half-edge with no opposite whose endpoint positions
coincide (zero squared norm of the edge vector) contributes nothing: the
loop body returns the constraint state unchanged — for every possible
normalisation function, which is therefore never applied to the zero-length
vector. -/
theorem claim_C10 (nrm : Vec3 → Vec3) (H : Hier) (s : CState) (i : Nat)
    (h1 : H.mE2E i = -1) (h2 : (edgeVec H i).sqNorm = 0) :
    stepEdge nrm H s i = s := by
  unfold stepEdge
  rw [if_pos h1, if_neg (by rw [h2]; exact lt_irrefl 0)]

/-- Witness for C10 on the degenerate triangle: half-edge 0 is boundary,
its endpoints coincide, and the step leaves the cleared state unchanged. -/
theorem claim_C10_witness :
    stepEdge id Hdeg clearConstraints 0 = clearConstraints :=
  claim_C10 id Hdeg clearConstraints 0 rfl
    (by norm_num [edgeVec, Hdeg, Vec3.sub, Vec3.sqNorm, Vec3.zero])

/-! ## The pipeline orchestrator (run_quadriflow, pipeline.cpp lines 100-201)

Stage calls into the external engine are recorded as events; the integer
flag values actually passed to `optimize_scale` and `optimize_positions`
are recorded in their events.  The engine's outputs (the hierarchy built by
`Initialize`, the compact output mesh built by `ComputeIndexMap`, and the
normalisation scale/offset recorded by `NormalizeMesh`) are abstracted as
an arbitrary `Engine` record. -/

/-- The classes of fatal error run_quadriflow can raise. -/
inductive PipeError where
  | emptyInput
  | badTargetFaces
  | loadOutOfRange
  | emptyResult
deriving DecidableEq, Repr

/-- Pipeline stage events, in the order the orchestrator performs them. -/
inductive Stage where
  | applyFlagsAndSeed
  | loadMesh
  | initHierarchy
  | clearConstraintsS
  | deriveBoundaryConstraints
  | propagateConstraintsS
  | optimizeOrientations
  | computeOrientationSingularities
  | estimateSlope
  | optimizeScale (flagAdaptive : Nat)
  | optimizePositions (flagAdaptive : Nat)
  | computePositionSingularities
  | computeIndexMap
deriving DecidableEq, Repr

/-- An output quad face (Vector4i of F_compact). -/
structure Quad where
  a : Int
  b : Int
  c : Int
  d : Int
deriving DecidableEq, Repr

/-- The external engine's contribution to one run, abstracted: the hierarchy
built by `Initialize`, Eigen's vector normalisation, the compact output mesh
produced by `ComputeIndexMap`, and the normalisation scale/offset recorded
by `NormalizeMesh`. -/
structure Engine where
  initHier : List Vec3 → List Nat → Int → Hier
  nrm : Vec3 → Vec3
  oCompact : List Vec3
  fCompact : List Quad
  normScale : ℚ
  normOffset : Vec3

/-- The QuadriFlowResult struct of pipeline.h. -/
structure RunResult where
  vertices : List ℚ
  faces : List Int
  num_vertices : Int
  num_faces : Int
deriving DecidableEq, Repr

/-- Observable outcome of one run: the stage-event trace, the returned
result or raised error, and (when boundary preservation ran) the derived
finest-level constraint state. -/
structure RunOutcome where
  trace : List Stage
  result : Except PipeError RunResult
  cstate : Option CState

/-- Model of `run_quadriflow`: validation, flag application, ingestion,
hierarchy initialisation, optional boundary-constraint derivation and
propagation, the fixed optimization sequence (with the adaptive-scale flag
forced to 1 between scale and position optimization), index-map compaction,
the empty-result check, and extraction of the flat output arrays. -/
def run_quadriflow (eng : Engine) (vertices : List Vec3)
    (faces : List (Int × Int × Int)) (target_faces : Int) (seed : Int)
    (preserve_sharp preserve_boundary adaptive_scale aggressive_sat
      minimum_cost_flow : Bool) : RunOutcome :=
  if vertices.length = 0 ∨ faces.length = 0 then
    ⟨[], .error .emptyInput, none⟩
  else if target_faces ≤ 0 then
    ⟨[], .error .badTargetFaces, none⟩
  else
    -- flags: each set to 1 when its boolean is passed, else left at the
    -- parametrizer constructor default 0; seed stored on the hierarchy
    let flag_adaptive_scale : Nat := if adaptive_scale then 1 else 0
    match LoadFromArrays vertices faces with
    | none => ⟨[.applyFlagsAndSeed, .loadMesh], .error .loadOutOfRange, none⟩
    | some (V, F) =>
      let H := eng.initHier V F target_faces
      let cst : Option CState :=
        if preserve_boundary then some (deriveBoundary eng.nrm H) else none
      let trace : List Stage :=
        [.applyFlagsAndSeed, .loadMesh, .initHierarchy] ++
        (if preserve_boundary then
          [.clearConstraintsS, .deriveBoundaryConstraints,
           .propagateConstraintsS]
         else []) ++
        [.optimizeOrientations, .computeOrientationSingularities] ++
        (if flag_adaptive_scale = 1 then [.estimateSlope] else []) ++
        [.optimizeScale flag_adaptive_scale, .optimizePositions 1,
         .computePositionSingularities, .computeIndexMap]
      if eng.oCompact.length = 0 ∨ eng.fCompact.length = 0 then
        ⟨trace, .error .emptyResult, cst⟩
      else
        ⟨trace,
         .ok
           { vertices := eng.oCompact.flatMap (fun p =>
               [p.x * eng.normScale + eng.normOffset.x,
                p.y * eng.normScale + eng.normOffset.y,
                p.z * eng.normScale + eng.normOffset.z]),
             faces := eng.fCompact.flatMap (fun q => [q.a, q.b, q.c, q.d]),
             num_vertices := (eng.oCompact.length : Int),
             num_faces := (eng.fCompact.length : Int) },
         cst⟩

/-- The trace of a run that passes validation and loads successfully,
spelled out; both the empty-result and the success branch carry it. -/
theorem run_quadriflow_trace_eq (eng : Engine) (vertices : List Vec3)
    (faces : List (Int × Int × Int)) (target_faces seed : Int)
    (ps pb as ag mc : Bool) (V : List Vec3) (F : List Nat)
    (hv : vertices.length ≠ 0) (hf : faces.length ≠ 0)
    (ht : ¬target_faces ≤ 0)
    (hload : LoadFromArrays vertices faces = some (V, F)) :
    (run_quadriflow eng vertices faces target_faces seed ps pb as ag mc).trace =
      [Stage.applyFlagsAndSeed, Stage.loadMesh, Stage.initHierarchy] ++
      (if pb then
        [Stage.clearConstraintsS, Stage.deriveBoundaryConstraints,
         Stage.propagateConstraintsS]
       else []) ++
      [Stage.optimizeOrientations, Stage.computeOrientationSingularities] ++
      (if (if as then (1 : Nat) else 0) = 1 then [Stage.estimateSlope] else []) ++
      [Stage.optimizeScale (if as then 1 else 0), Stage.optimizePositions 1,
       Stage.computePositionSingularities, Stage.computeIndexMap] := by
  unfold run_quadriflow
  rw [if_neg (not_or.mpr ⟨hv, hf⟩), if_neg ht, hload]
  dsimp only
  by_cases hres : eng.oCompact.length = 0 ∨ eng.fCompact.length = 0
  · rw [if_pos hres]
  · rw [if_neg hres]

/-- C5: every run that passes validation and loads successfully performs its
stages in the fixed order — flags and seed, ingest, hierarchy
initialisation, then (only under preserve-boundary) clear, derive and
propagate constraints exactly once before any optimization, then
orientation optimization, orientation singularities (always), (only under
adaptive-scale) slope estimation, scale optimization, position
optimization, position singularities, and the index map — nothing skipped
or reordered. -/
theorem claim_C5 (eng : Engine) (vertices : List Vec3)
    (faces : List (Int × Int × Int)) (target_faces seed : Int)
    (ps pb as ag mc : Bool) (V : List Vec3) (F : List Nat)
    (hv : vertices.length ≠ 0) (hf : faces.length ≠ 0)
    (ht : ¬target_faces ≤ 0)
    (hload : LoadFromArrays vertices faces = some (V, F)) :
    (run_quadriflow eng vertices faces target_faces seed ps pb as ag mc).trace =
      [Stage.applyFlagsAndSeed, Stage.loadMesh, Stage.initHierarchy] ++
      (if pb then
        [Stage.clearConstraintsS, Stage.deriveBoundaryConstraints,
         Stage.propagateConstraintsS]
       else []) ++
      [Stage.optimizeOrientations, Stage.computeOrientationSingularities] ++
      (if as then [Stage.estimateSlope] else []) ++
      [Stage.optimizeScale (if as then 1 else 0), Stage.optimizePositions 1,
       Stage.computePositionSingularities, Stage.computeIndexMap] ∧
    ((run_quadriflow eng vertices faces target_faces seed ps pb as ag
        mc).trace.count Stage.propagateConstraintsS = if pb then 1 else 0) ∧
    Stage.computeOrientationSingularities ∈
      (run_quadriflow eng vertices faces target_faces seed ps pb as ag
        mc).trace := by
  have htr := run_quadriflow_trace_eq eng vertices faces target_faces seed
    ps pb as ag mc V F hv hf ht hload
  rw [htr]
  refine ⟨?_, ?_, ?_⟩
  · cases as <;> cases pb <;> decide
  · cases as <;> cases pb <;> decide
  · cases as <;> cases pb <;> decide

/-- Witness for C5 at a concrete run (all flags false, one triangle). -/
theorem claim_C5_witness :
    (run_quadriflow ⟨fun _ _ _ => Hdeg, id, [Vec3.zero], [⟨0, 0, 0, 0⟩], 1, Vec3.zero⟩
        [⟨0, 0, 0⟩, ⟨1, 0, 0⟩, ⟨0, 1, 0⟩] [(0, 1, 2)] 10 0
        false false false false false).trace =
      [Stage.applyFlagsAndSeed, Stage.loadMesh, Stage.initHierarchy] ++
      (if false then
        [Stage.clearConstraintsS, Stage.deriveBoundaryConstraints,
         Stage.propagateConstraintsS]
       else []) ++
      [Stage.optimizeOrientations, Stage.computeOrientationSingularities] ++
      (if false then [Stage.estimateSlope] else []) ++
      [Stage.optimizeScale (if false then 1 else 0), Stage.optimizePositions 1,
       Stage.computePositionSingularities, Stage.computeIndexMap] ∧
    ((run_quadriflow ⟨fun _ _ _ => Hdeg, id, [Vec3.zero], [⟨0, 0, 0, 0⟩], 1, Vec3.zero⟩
        [⟨0, 0, 0⟩, ⟨1, 0, 0⟩, ⟨0, 1, 0⟩] [(0, 1, 2)] 10 0
        false false false false false).trace.count Stage.propagateConstraintsS =
      if false then 1 else 0) ∧
    Stage.computeOrientationSingularities ∈
      (run_quadriflow ⟨fun _ _ _ => Hdeg, id, [Vec3.zero], [⟨0, 0, 0, 0⟩], 1, Vec3.zero⟩
        [⟨0, 0, 0⟩, ⟨1, 0, 0⟩, ⟨0, 1, 0⟩] [(0, 1, 2)] 10 0
        false false false false false).trace :=
  claim_C5 _ _ _ 10 0 false false false false false
    [⟨0, 0, 0⟩, ⟨1, 0, 0⟩, ⟨0, 1, 0⟩] [0, 1, 2]
    (by decide) (by decide) (by decide) rfl

/-- C2: the stage trace records that position optimization is always
invoked with adaptive-scale flag value 1, for every caller-supplied
adaptive_scale, while scale optimization still receives the caller's
original flag value — the forced override affects only the
position-optimization call. -/
theorem claim_C2 (eng : Engine) (vertices : List Vec3)
    (faces : List (Int × Int × Int)) (target_faces seed : Int)
    (ps pb as ag mc : Bool) (V : List Vec3) (F : List Nat)
    (hv : vertices.length ≠ 0) (hf : faces.length ≠ 0)
    (ht : ¬target_faces ≤ 0)
    (hload : LoadFromArrays vertices faces = some (V, F)) :
    Stage.optimizePositions 1 ∈
      (run_quadriflow eng vertices faces target_faces seed ps pb as ag mc).trace ∧
    (∀ b, Stage.optimizePositions b ∈
      (run_quadriflow eng vertices faces target_faces seed ps pb as ag mc).trace →
      b = 1) ∧
    Stage.optimizeScale (if as then 1 else 0) ∈
      (run_quadriflow eng vertices faces target_faces seed ps pb as ag mc).trace ∧
    (∀ b, Stage.optimizeScale b ∈
      (run_quadriflow eng vertices faces target_faces seed ps pb as ag mc).trace →
      b = if as then 1 else 0) := by
  have htr := run_quadriflow_trace_eq eng vertices faces target_faces seed
    ps pb as ag mc V F hv hf ht hload
  rw [htr]
  refine ⟨?_, ?_, ?_, ?_⟩
  · cases as <;> cases pb <;> decide
  · intro b hb
    cases as <;> cases pb <;>
      simpa using hb
  · cases as <;> cases pb <;> decide
  · intro b hb
    cases as <;> cases pb <;>
      simpa using hb

/-- Witness for C2 at a concrete run with caller-supplied
adaptive_scale = false: position optimization still receives flag 1 and
scale optimization receives flag 0. -/
theorem claim_C2_witness :
    Stage.optimizePositions 1 ∈
      (run_quadriflow ⟨fun _ _ _ => Hdeg, id, [Vec3.zero], [⟨0, 0, 0, 0⟩], 1, Vec3.zero⟩
        [⟨0, 0, 0⟩, ⟨1, 0, 0⟩, ⟨0, 1, 0⟩] [(0, 1, 2)] 10 0
        false false false false false).trace ∧
    (∀ b, Stage.optimizePositions b ∈
      (run_quadriflow ⟨fun _ _ _ => Hdeg, id, [Vec3.zero], [⟨0, 0, 0, 0⟩], 1, Vec3.zero⟩
        [⟨0, 0, 0⟩, ⟨1, 0, 0⟩, ⟨0, 1, 0⟩] [(0, 1, 2)] 10 0
        false false false false false).trace → b = 1) ∧
    Stage.optimizeScale (if false then 1 else 0) ∈
      (run_quadriflow ⟨fun _ _ _ => Hdeg, id, [Vec3.zero], [⟨0, 0, 0, 0⟩], 1, Vec3.zero⟩
        [⟨0, 0, 0⟩, ⟨1, 0, 0⟩, ⟨0, 1, 0⟩] [(0, 1, 2)] 10 0
        false false false false false).trace ∧
    (∀ b, Stage.optimizeScale b ∈
      (run_quadriflow ⟨fun _ _ _ => Hdeg, id, [Vec3.zero], [⟨0, 0, 0, 0⟩], 1, Vec3.zero⟩
        [⟨0, 0, 0⟩, ⟨1, 0, 0⟩, ⟨0, 1, 0⟩] [(0, 1, 2)] 10 0
        false false false false false).trace → b = if false then 1 else 0) :=
  claim_C2 _ _ _ 10 0 false false false false false
    [⟨0, 0, 0⟩, ⟨1, 0, 0⟩, ⟨0, 1, 0⟩] [0, 1, 2]
    (by decide) (by decide) (by decide) rfl

/-- C6: empty input or a non-positive target face count raises a fatal
precondition error before any stage runs, and a run that completes all
stages but yields an empty compact output raises a distinct empty-result
error. -/
theorem claim_C6 (eng : Engine) (vertices : List Vec3)
    (faces : List (Int × Int × Int)) (target_faces seed : Int)
    (ps pb as ag mc : Bool) :
    ((vertices.length = 0 ∨ faces.length = 0) →
      (run_quadriflow eng vertices faces target_faces seed ps pb as ag
        mc).result = .error .emptyInput ∧
      (run_quadriflow eng vertices faces target_faces seed ps pb as ag
        mc).trace = []) ∧
    (vertices.length ≠ 0 → faces.length ≠ 0 → target_faces ≤ 0 →
      (run_quadriflow eng vertices faces target_faces seed ps pb as ag
        mc).result = .error .badTargetFaces ∧
      (run_quadriflow eng vertices faces target_faces seed ps pb as ag
        mc).trace = []) ∧
    (∀ V F, vertices.length ≠ 0 → faces.length ≠ 0 → ¬target_faces ≤ 0 →
      LoadFromArrays vertices faces = some (V, F) →
      (eng.oCompact.length = 0 ∨ eng.fCompact.length = 0) →
      (run_quadriflow eng vertices faces target_faces seed ps pb as ag
        mc).result = .error .emptyResult ∧
      Stage.computeIndexMap ∈
        (run_quadriflow eng vertices faces target_faces seed ps pb as ag
          mc).trace) ∧
    (PipeError.emptyResult ≠ PipeError.emptyInput ∧
     PipeError.emptyResult ≠ PipeError.badTargetFaces) := by
  refine ⟨?_, ?_, ?_, by decide, by decide⟩
  · intro h
    unfold run_quadriflow
    rw [if_pos h]
    exact ⟨rfl, rfl⟩
  · intro hv hf ht
    unfold run_quadriflow
    rw [if_neg (not_or.mpr ⟨hv, hf⟩), if_pos ht]
    exact ⟨rfl, rfl⟩
  · intro V F hv hf ht hload hempty
    have htr := run_quadriflow_trace_eq eng vertices faces target_faces seed
      ps pb as ag mc V F hv hf ht hload
    constructor
    · unfold run_quadriflow
      rw [if_neg (not_or.mpr ⟨hv, hf⟩), if_neg ht, hload]
      dsimp only
      rw [if_pos hempty]
    · rw [htr]
      cases as <;> cases pb <;> decide

/-- Witness for C6: the empty-input branch at a concrete call. -/
theorem claim_C6_witness :
    (run_quadriflow ⟨fun _ _ _ => Hdeg, id, [], [], 1, Vec3.zero⟩
      [] [] 5 0 false false false false false).result =
        .error .emptyInput ∧
    (run_quadriflow ⟨fun _ _ _ => Hdeg, id, [], [], 1, Vec3.zero⟩
      [] [] 5 0 false false false false false).trace = [] :=
  (claim_C6 ⟨fun _ _ _ => Hdeg, id, [], [], 1, Vec3.zero⟩
    [] [] 5 0 false false false false false).1 (Or.inl rfl)

/-! ### Result extraction (C7) -/

theorem flatMap_length_const {α β : Type} (c : Nat) (f : α → List β)
    (hf : ∀ a, (f a).length = c) (l : List α) :
    (l.flatMap f).length = c * l.length := by
  induction l with
  | nil => simp
  | cons a rest ih =>
    simp only [List.flatMap_cons, List.length_append, ih, hf a,
      List.length_cons]
    ring

theorem flatMap_getElem_chunk {α β : Type} (c : Nat) (f : α → List β)
    (hf : ∀ a, (f a).length = c) (l : List α) (i k : Nat)
    (hi : i < l.length) (hk : k < c) :
    (l.flatMap f)[c * i + k]? = (f (l.get ⟨i, hi⟩))[k]? := by
  induction l generalizing i with
  | nil => cases hi
  | cons a rest ih =>
    cases i with
    | zero =>
      simp only [List.flatMap_cons]
      rw [List.getElem?_append, if_pos (by rw [hf a]; omega)]
      simp
    | succ n =>
      simp only [List.flatMap_cons]
      have hc : c * (n + 1) + k = c * n + k + (f a).length := by
        rw [hf a]
        ring
      rw [List.getElem?_append, if_neg (by omega)]
      have hsub : c * (n + 1) + k - (f a).length = c * n + k := by omega
      rw [hsub]
      have hn : n < rest.length := by
        simpa using Nat.lt_of_succ_lt_succ hi
      exact ih n hn

/-- The flat denormalised output vertex array (lines 184-190). -/
def extractVertices (eng : Engine) : List ℚ :=
  eng.oCompact.flatMap (fun p =>
    [p.x * eng.normScale + eng.normOffset.x,
     p.y * eng.normScale + eng.normOffset.y,
     p.z * eng.normScale + eng.normOffset.z])

/-- The flat output face-index array (lines 192-198). -/
def extractFaces (eng : Engine) : List Int :=
  eng.fCompact.flatMap (fun q => [q.a, q.b, q.c, q.d])

/-- The QuadriFlowResult a successful run returns. -/
def extractResult (eng : Engine) : RunResult :=
  { vertices := extractVertices eng,
    faces := extractFaces eng,
    num_vertices := (eng.oCompact.length : Int),
    num_faces := (eng.fCompact.length : Int) }

/-- C7: on a successful run each output vertex is the corresponding compact
vertex transformed by `position * normalize_scale + normalize_offset`, three
components contiguous; each output face is its compact quad's four indices
contiguous in engine order; and the reported counts are exactly the compact
sequences' lengths. -/
theorem claim_C7 (eng : Engine) (vertices : List Vec3)
    (faces : List (Int × Int × Int)) (target_faces seed : Int)
    (ps pb as ag mc : Bool) (V : List Vec3) (F : List Nat)
    (hv : vertices.length ≠ 0) (hf : faces.length ≠ 0)
    (ht : ¬target_faces ≤ 0)
    (hload : LoadFromArrays vertices faces = some (V, F))
    (hO : eng.oCompact.length ≠ 0) (hQ : eng.fCompact.length ≠ 0) :
    ∃ r, (run_quadriflow eng vertices faces target_faces seed ps pb as ag
        mc).result = .ok r ∧
      r.num_vertices = (eng.oCompact.length : Int) ∧
      r.num_faces = (eng.fCompact.length : Int) ∧
      r.vertices.length = 3 * eng.oCompact.length ∧
      r.faces.length = 4 * eng.fCompact.length ∧
      (∀ i, (hi : i < eng.oCompact.length) →
        r.vertices[3 * i]? =
          some ((eng.oCompact.get ⟨i, hi⟩).x * eng.normScale + eng.normOffset.x) ∧
        r.vertices[3 * i + 1]? =
          some ((eng.oCompact.get ⟨i, hi⟩).y * eng.normScale + eng.normOffset.y) ∧
        r.vertices[3 * i + 2]? =
          some ((eng.oCompact.get ⟨i, hi⟩).z * eng.normScale + eng.normOffset.z)) ∧
      (∀ i, (hi : i < eng.fCompact.length) →
        r.faces[4 * i]? = some (eng.fCompact.get ⟨i, hi⟩).a ∧
        r.faces[4 * i + 1]? = some (eng.fCompact.get ⟨i, hi⟩).b ∧
        r.faces[4 * i + 2]? = some (eng.fCompact.get ⟨i, hi⟩).c ∧
        r.faces[4 * i + 3]? = some (eng.fCompact.get ⟨i, hi⟩).d) := by
  have hv3 : ∀ k, k < 3 →
      ∀ i, (hi : i < eng.oCompact.length) →
      (extractVertices eng)[3 * i + k]? =
        ([(eng.oCompact.get ⟨i, hi⟩).x * eng.normScale + eng.normOffset.x,
          (eng.oCompact.get ⟨i, hi⟩).y * eng.normScale + eng.normOffset.y,
          (eng.oCompact.get ⟨i, hi⟩).z * eng.normScale + eng.normOffset.z] :
            List ℚ)[k]? := by
    intro k hk i hi
    unfold extractVertices
    exact flatMap_getElem_chunk 3
      (fun p => [p.x * eng.normScale + eng.normOffset.x,
        p.y * eng.normScale + eng.normOffset.y,
        p.z * eng.normScale + eng.normOffset.z])
      (fun a => rfl) eng.oCompact i k hi hk
  have hf4 : ∀ k, k < 4 →
      ∀ i, (hi : i < eng.fCompact.length) →
      (extractFaces eng)[4 * i + k]? =
        ([(eng.fCompact.get ⟨i, hi⟩).a, (eng.fCompact.get ⟨i, hi⟩).b,
          (eng.fCompact.get ⟨i, hi⟩).c, (eng.fCompact.get ⟨i, hi⟩).d] :
            List Int)[k]? := by
    intro k hk i hi
    unfold extractFaces
    exact flatMap_getElem_chunk 4 (fun q => [q.a, q.b, q.c, q.d])
      (fun a => rfl) eng.fCompact i k hi hk
  refine ⟨extractResult eng, ?_, rfl, rfl, ?_, ?_, ?_, ?_⟩
  · unfold run_quadriflow
    rw [if_neg (not_or.mpr ⟨hv, hf⟩), if_neg ht, hload]
    dsimp only
    rw [if_neg (not_or.mpr ⟨hO, hQ⟩)]
    rfl
  · unfold extractResult extractVertices
    exact flatMap_length_const 3
      (fun p => [p.x * eng.normScale + eng.normOffset.x,
        p.y * eng.normScale + eng.normOffset.y,
        p.z * eng.normScale + eng.normOffset.z])
      (fun a => rfl) eng.oCompact
  · unfold extractResult extractFaces
    exact flatMap_length_const 4 (fun q => [q.a, q.b, q.c, q.d])
      (fun a => rfl) eng.fCompact
  · intro i hi
    refine ⟨?_, ?_, ?_⟩
    · have h := hv3 0 (by omega) i hi
      simpa using h
    · have h := hv3 1 (by omega) i hi
      simpa using h
    · have h := hv3 2 (by omega) i hi
      simpa using h
  · intro i hi
    refine ⟨?_, ?_, ?_, ?_⟩
    · have h := hf4 0 (by omega) i hi
      simpa using h
    · have h := hf4 1 (by omega) i hi
      simpa using h
    · have h := hf4 2 (by omega) i hi
      simpa using h
    · have h := hf4 3 (by omega) i hi
      simpa using h

/-- A concrete engine whose compact output is one vertex and one quad. -/
def engW : Engine :=
  ⟨fun _ _ _ => Hdeg, id, [⟨1, 2, 3⟩], [⟨4, 5, 6, 7⟩], 2, ⟨1, 1, 1⟩⟩

/-- Witness for C7 at a concrete successful run. -/
theorem claim_C7_witness :
    ∃ r, (run_quadriflow engW [⟨0, 0, 0⟩, ⟨1, 0, 0⟩, ⟨0, 1, 0⟩] [(0, 1, 2)]
        10 0 false false false false false).result = .ok r ∧
      r.num_vertices = (engW.oCompact.length : Int) ∧
      r.num_faces = (engW.fCompact.length : Int) ∧
      r.vertices.length = 3 * engW.oCompact.length ∧
      r.faces.length = 4 * engW.fCompact.length ∧
      (∀ i, (hi : i < engW.oCompact.length) →
        r.vertices[3 * i]? =
          some ((engW.oCompact.get ⟨i, hi⟩).x * engW.normScale + engW.normOffset.x) ∧
        r.vertices[3 * i + 1]? =
          some ((engW.oCompact.get ⟨i, hi⟩).y * engW.normScale + engW.normOffset.y) ∧
        r.vertices[3 * i + 2]? =
          some ((engW.oCompact.get ⟨i, hi⟩).z * engW.normScale + engW.normOffset.z)) ∧
      (∀ i, (hi : i < engW.fCompact.length) →
        r.faces[4 * i]? = some (engW.fCompact.get ⟨i, hi⟩).a ∧
        r.faces[4 * i + 1]? = some (engW.fCompact.get ⟨i, hi⟩).b ∧
        r.faces[4 * i + 2]? = some (engW.fCompact.get ⟨i, hi⟩).c ∧
        r.faces[4 * i + 3]? = some (engW.fCompact.get ⟨i, hi⟩).d) :=
  claim_C7 engW [⟨0, 0, 0⟩, ⟨1, 0, 0⟩, ⟨0, 1, 0⟩] [(0, 1, 2)] 10 0
    false false false false false
    [⟨0, 0, 0⟩, ⟨1, 0, 0⟩, ⟨0, 1, 0⟩] [0, 1, 2]
    (by decide) (by decide) (by decide) rfl (by decide) (by decide)

/-- C9: a face corner index outside the valid position range — negative
included — makes the mesh-loading step fail with the out-of-range error
(the checked `positions.at` access), so run_quadriflow raises and never
returns a result; no out-of-bounds read is modelled because the lookup is
total. -/
theorem claim_C9 (eng : Engine) (vertices : List Vec3)
    (faces : List (Int × Int × Int)) (target_faces seed : Int)
    (ps pb as ag mc : Bool)
    (hv : vertices.length ≠ 0)
    (hbound : vertices.length ≤ 2 ^ 31)
    (ht : ¬target_faces ≤ 0)
    (hbad : ∃ f ∈ faces, ∃ k ∈ [f.1, f.2.1, f.2.2],
      -(2 ^ 31) ≤ k ∧ k < 2 ^ 31 ∧ (k < 0 ∨ (vertices.length : Int) ≤ k)) :
    LoadFromArrays vertices faces = none ∧
    (run_quadriflow eng vertices faces target_faces seed ps pb as ag
      mc).result = .error .loadOutOfRange := by
  obtain ⟨f, hfmem, k, hkmem, h1, h2, h3⟩ := hbad
  have hfne : faces.length ≠ 0 := fun h0 =>
    (List.ne_nil_of_mem hfmem) (List.length_eq_zero.mp h0)
  have hmemflat : toU32 k ∈ flatFaces faces := by
    obtain ⟨m1, m2, m3⟩ := mem_flatFaces_of_mem hfmem
    simp only [List.mem_cons, List.mem_singleton, List.not_mem_nil,
      or_false] at hkmem
    rcases hkmem with rfl | rfl | rfl
    · exact m1
    · exact m2
    · exact m3
  have hge : vertices.length ≤ toU32 k := by
    unfold toU32
    rcases h3 with h3 | h3 <;> omega
  have hkeys : toU32 k ∈ (dedupRun (flatFaces faces)).1 :=
    (mem_dedupRun_keys _ _).mpr hmemflat
  have hnone : vertices[toU32 k]? = none := List.getElem?_eq_none hge
  have hmapM := mapM_getElem_eq_none vertices _ _ hkeys hnone
  have hL : LoadFromArrays vertices faces = none := by
    unfold LoadFromArrays
    rw [hmapM]
  refine ⟨hL, ?_⟩
  unfold run_quadriflow
  rw [if_neg (not_or.mpr ⟨hv, hfne⟩), if_neg ht, hL]

/-- Witness for C9: two positions, one face whose second corner is index 5,
outside the valid range. -/
theorem claim_C9_witness :
    LoadFromArrays [⟨0, 0, 0⟩, ⟨1, 0, 0⟩] [(0, 5, 1)] = none ∧
    (run_quadriflow engW [⟨0, 0, 0⟩, ⟨1, 0, 0⟩] [(0, 5, 1)] 10 0
      false false false false false).result = .error .loadOutOfRange :=
  claim_C9 engW [⟨0, 0, 0⟩, ⟨1, 0, 0⟩] [(0, 5, 1)] 10 0
    false false false false false
    (by decide) (by decide) (by decide) (by decide)
